import Mathlib

/-
  Verification of the QubitText-Compressor fixed-width codec
  (src/QubitText-Compressor.py).

  Shallow embedding conventions:
  * Python strings are `List Char`; the alphabet entries (`char_set`) are
    `List (List Char)` since each table entry is a (normalized) string.
  * Python's textual bit patterns ('0'/'1' strings produced by
    `format(i, f'0{w}b')`) are `List Bool`, most significant bit first.
  * Byte buffers are `List Nat` (every produced byte is < 256).
  * Raised `ValueError`s become an `Except CErr` result, with one
    constructor per error class of the source.
  * `TextCompressor.init` models `TextCompressor.__init__` from line 23 on:
    it receives the already parsed-and-normalized entry list (the state of
    `self.char_set` at line 23; file reading and entry normalization of
    lines 6-21 are boundary I/O).
  * Recursions that Python drives by an index loop are written with an
    explicit structural fuel argument (`natBitsAux`, `decodeLoopAux`,
    `hitsEosAux`) so that every definition is executable by `decide`;
    fuel-adequacy lemmas below recover the intended recurrences.
-/

/-- Error classes of the source: `InvalidTable` (empty table or more than 5
bits needed), `UnsupportedSymbol` (encode meets a character without a code),
`InvalidCode` (decode meets a full window that is neither a symbol code nor
the EOS code; the offending window is carried). -/
inductive CErr where
  | invalidTable : CErr
  | unsupportedSymbol : Char → CErr
  | invalidCode : List Bool → CErr
deriving DecidableEq

deriving instance DecidableEq for Except

/-- Binary digits of `n`, most significant first, with structural fuel.
`natBitsAux fuel n` equals the digit list of `n` whenever `n ≤ fuel`. -/
def natBitsAux : Nat → Nat → List Bool
  | _, 0 => []
  | 0, _ + 1 => []
  | fuel + 1, n + 1 => natBitsAux fuel ((n + 1) / 2) ++ [decide ((n + 1) % 2 = 1)]

/-- Binary digits of `n`, most significant first (empty for 0). -/
def natBits (n : Nat) : List Bool := natBitsAux n n

/-- Python `format(n, 'b')`: the binary digit string of `n`, where 0 renders
as the single digit '0'. -/
def formatBin (n : Nat) : List Bool := if n = 0 then [false] else natBits n

/-- Python `format(n, f'0{w}b')`: the binary digit string of `n` left-padded
with zeros to at least `w` digits. -/
def formatBits (w n : Nat) : List Bool :=
  List.replicate (w - (formatBin n).length) false ++ formatBin n

/-- Python `int(s, 2)` on a digit string: the value of a
most-significant-first bit list. -/
def bitsToNat (bs : List Bool) : Nat :=
  bs.foldl (fun a b => 2 * a + (if b then 1 else 0)) 0

/-- The `byte_str += '0' * (8 - len(byte_str))` step of `compress`: pad a
final chunk with low-order zero bits up to 8 bits. -/
def padTo8 (l : List Bool) : List Bool := l ++ List.replicate (8 - l.length) false

/-- The byte-packing loop of `compress` (lines 58-63): split the bitstream
into 8-bit chunks, zero-pad the last chunk, and convert each chunk to a
byte value. -/
def packBits : List Bool → List Nat
  | [] => []
  | b0 :: b1 :: b2 :: b3 :: b4 :: b5 :: b6 :: b7 :: rest =>
      bitsToNat [b0, b1, b2, b3, b4, b5, b6, b7] :: packBits rest
  | l => [bitsToNat (padTo8 l)]

/-- The unpacking loop of `decompress` (lines 69-71): each byte contributes
`format(byte, '08b')`. -/
def bytesToBits (bytes : List Nat) : List Bool :=
  (bytes.map (fun b => formatBits 8 b)).flatten

/-- Lookup in the Python dict `char_to_code` built by the comprehension of
line 33: later duplicate keys overwrite earlier ones, so a symbol is mapped
to its LAST index in `char_set`. `lastAssign s i l` returns the index
(offset by the base `i`) of the last occurrence of `s` in `l`. -/
def lastAssign (s : List Char) : Nat → List (List Char) → Option Nat
  | _, [] => none
  | i, e :: rest =>
      match lastAssign s (i + 1) rest with
      | some j => some j
      | none => if e = s then some i else none

/-- Lookup in the Python dict `code_to_char` restricted to its symbol
entries (the inversion comprehension of line 35): `code` is mapped to the
entry `e` of `char_set` whose surviving (last-occurrence) assigned code is
`code`. -/
def invAssign (cs : List (List Char)) (w : Nat) (code : List Bool) :
    Nat → List (List Char) → Option (List Char)
  | _, [] => none
  | i, e :: rest =>
      if formatBits w i = code ∧ lastAssign e 0 cs = some i then some e
      else invAssign cs w code (i + 1) rest

/-- The state of a constructed `TextCompressor` object: the normalized
entry list, its length, the code width, and the EOS bit pattern. The two
dictionaries `char_to_code` and `code_to_char` are pure functions of these
fields and are modelled by the lookups below. -/
structure TextCompressor where
  char_set : List (List Char)
  num_chars : Nat
  bits_per_char : Nat
  eos_code : List Bool
deriving DecidableEq

/-- `self.char_to_code[s]` (line 33): the `bits_per_char`-wide pattern of
the last index at which `s` occurs in `char_set`, if any. -/
def TextCompressor.char_to_code (t : TextCompressor) (s : List Char) : Option (List Bool) :=
  (lastAssign s 0 t.char_set).map (fun i => formatBits t.bits_per_char i)

/-- `self.code_to_char[code]` (lines 35-38): `some none` is the EOS entry
(Python `None`), `some (some e)` a symbol entry, `none` a missing key. The
EOS entry is inserted last (line 38) and therefore wins over any earlier
entry, hence it is tested first. -/
def TextCompressor.code_to_char (t : TextCompressor) (code : List Bool) :
    Option (Option (List Char)) :=
  if code = t.eos_code then some none
  else (invAssign t.char_set t.bits_per_char code 0 t.char_set).map some

/-- `TextCompressor.__init__` from line 23 on: fail on an empty entry list,
compute `bits_per_char = ceil(log2(num_chars + 1))` (the float computation
of line 28 is exact on every branch-relevant input), fail when more than 5
bits would be needed, otherwise build the object.  `Nat.clog 2` is the
ceiling base-2 logarithm. -/
def TextCompressor.init (char_set : List (List Char)) : Except CErr TextCompressor :=
  if char_set = [] then .error .invalidTable
  else
    let num_chars := char_set.length
    let bits_per_char := Nat.clog 2 (num_chars + 1)
    if 5 < bits_per_char then .error .invalidTable
    else .ok {
      char_set := char_set
      num_chars := num_chars
      bits_per_char := bits_per_char
      eos_code := formatBits bits_per_char num_chars }

/-- The logical bitstream of `compress` (lines 50-55) for already
case-folded, validated text: the concatenated codes of the characters
followed by the EOS code. (After validation every lookup succeeds, so the
`getD` default is never taken.) -/
def TextCompressor.encodeBits (t : TextCompressor) (text : List Char) : List Bool :=
  (text.map (fun c => (t.char_to_code [c]).getD [])).flatten ++ t.eos_code

/-- `TextCompressor.compress` (lines 40-65): case-fold, reject on the first
character without a code, otherwise pack `encodeBits` and return the packed
bytes together with the symbol-only logical bit count. -/
def TextCompressor.compress (t : TextCompressor) (input : List Char) :
    Except CErr (List Nat × Nat) :=
  let text := input.map Char.toLower
  match text.find? (fun c => (t.char_to_code [c]).isNone) with
  | some c => .error (.unsupportedSymbol c)
  | none =>
      let bitstream := t.encodeBits text
      .ok (packBits bitstream, bitstream.length - t.bits_per_char)

/-- The scanning loop of `decompress` (lines 74-87), with structural fuel:
take the next `bits_per_char`-bit window; stop on exhausted input or a
short window, stop silently on EOS, emit a mapped symbol, fail on an
unmapped window. One fuel unit is spent per emitted symbol, and each such
step consumes at least one bit, so fuel `bits.length` is always enough. -/
def decodeLoopAux (t : TextCompressor) : Nat → List Bool → Except CErr (List Char)
  | _, [] => .ok []
  | 0, _ :: _ => .ok []
  | fuel + 1, b :: bs =>
      let code := (b :: bs).take t.bits_per_char
      if code.length < t.bits_per_char then .ok []
      else if code = t.eos_code then .ok []
      else
        match t.code_to_char code with
        | some (some s) =>
            (decodeLoopAux t fuel ((b :: bs).drop t.bits_per_char)).map (fun r => s ++ r)
        | _ => .error (.invalidCode code)

/-- The scanning loop of `decompress` applied to a whole bitstream. -/
def TextCompressor.decodeLoop (t : TextCompressor) (bits : List Bool) :
    Except CErr (List Char) :=
  decodeLoopAux t bits.length bits

/-- `TextCompressor.decompress` (lines 67-88): unpack the bytes into a
bitstream and run the scanning loop. -/
def TextCompressor.decompress (t : TextCompressor) (compressed : List Nat) :
    Except CErr (List Char) :=
  t.decodeLoop (bytesToBits compressed)

/-- Instrumentation of the scanning loop recording HOW it terminates:
`true` exactly when the loop stops by meeting the EOS code (the
`if code == self.eos_code: break` branch), `false` on every other exit. -/
def hitsEosAux (t : TextCompressor) : Nat → List Bool → Bool
  | _, [] => false
  | 0, _ :: _ => false
  | fuel + 1, b :: bs =>
      let code := (b :: bs).take t.bits_per_char
      if code.length < t.bits_per_char then false
      else if code = t.eos_code then true
      else
        match t.code_to_char code with
        | some (some _) => hitsEosAux t fuel ((b :: bs).drop t.bits_per_char)
        | _ => false

/-- Whether the scanning loop on `bits` terminates through the EOS branch. -/
def TextCompressor.decodeHitsEos (t : TextCompressor) (bits : List Bool) : Bool :=
  hitsEosAux t bits.length bits

/-- The table the source builds for the alphabet a, b, c: width 2, EOS
pattern 11. -/
def tableABC : TextCompressor :=
  { char_set := [['a'], ['b'], ['c']], num_chars := 3, bits_per_char := 2,
    eos_code := [true, true] }

/-- The table for the alphabet a, b: width 2 (three values needed), EOS
pattern 10, leaving the window 11 unassigned. -/
def tableAB : TextCompressor :=
  { char_set := [['a'], ['b']], num_chars := 2, bits_per_char := 2,
    eos_code := [true, false] }

/-- The table for the duplicated entry list a, b, a: the entry count is 3,
the code 00 of the first occurrence of a is shadowed by the last
occurrence's code 10. -/
def tableDup : TextCompressor :=
  { char_set := [['a'], ['b'], ['a']], num_chars := 3, bits_per_char := 2,
    eos_code := [true, true] }

/-! ### Fuel adequacy and recurrences for the digit functions -/

theorem natBitsAux_zero (f : Nat) : natBitsAux f 0 = [] := by
  cases f <;> rfl

theorem natBitsAux_succ (f n : Nat) :
    natBitsAux (f + 1) (n + 1) =
      natBitsAux f ((n + 1) / 2) ++ [decide ((n + 1) % 2 = 1)] := rfl

theorem natBitsAux_fuel :
    ∀ f1 f2 n, n ≤ f1 → n ≤ f2 → natBitsAux f1 n = natBitsAux f2 n := by
  intro f1
  induction f1 with
  | zero =>
      intro f2 n h1 _
      have hn : n = 0 := by omega
      subst hn
      rw [natBitsAux_zero, natBitsAux_zero]
  | succ f ih =>
      intro f2 n h1 h2
      cases n with
      | zero => rw [natBitsAux_zero, natBitsAux_zero]
      | succ m =>
          cases f2 with
          | zero => omega
          | succ f2' =>
              rw [natBitsAux_succ, natBitsAux_succ,
                ih f2' ((m + 1) / 2) (by omega) (by omega)]

theorem natBits_eq (n : Nat) :
    natBits n = if n = 0 then [] else natBits (n / 2) ++ [decide (n % 2 = 1)] := by
  cases n with
  | zero => rfl
  | succ m =>
      simp only [natBits, if_neg (Nat.succ_ne_zero m)]
      rw [natBitsAux_succ]
      congr 1
      exact natBitsAux_fuel m ((m + 1) / 2) ((m + 1) / 2) (by omega) (by omega)

/-! ### Values and lengths of bit patterns -/

theorem bitsToNat_concat (l : List Bool) (b : Bool) :
    bitsToNat (l ++ [b]) = 2 * bitsToNat l + (if b then 1 else 0) := by
  simp [bitsToNat, List.foldl_append]

theorem bitsToNat_natBits (n : Nat) : bitsToNat (natBits n) = n := by
  induction n using Nat.strong_induction_on with
  | _ n ih =>
      rw [natBits_eq]
      by_cases h : n = 0
      · subst h; rfl
      · simp only [if_neg h]
        rw [bitsToNat_concat, ih (n / 2) (Nat.div_lt_self (Nat.pos_of_ne_zero h) one_lt_two)]
        rcases Nat.mod_two_eq_zero_or_one n with h2 | h2 <;> simp [h2] <;> omega

theorem bitsToNat_replicate_false (k : Nat) (l : List Bool) :
    bitsToNat (List.replicate k false ++ l) = bitsToNat l := by
  induction k with
  | zero => rfl
  | succ m ih =>
      rw [List.replicate_succ, List.cons_append]
      simpa [bitsToNat] using ih

theorem bitsToNat_formatBin (n : Nat) : bitsToNat (formatBin n) = n := by
  unfold formatBin
  split
  · subst ‹n = 0›; rfl
  · exact bitsToNat_natBits n

theorem bitsToNat_formatBits (w n : Nat) : bitsToNat (formatBits w n) = n := by
  unfold formatBits
  rw [bitsToNat_replicate_false, bitsToNat_formatBin]

theorem formatBits_inj {w m n : Nat} (h : formatBits w m = formatBits w n) : m = n := by
  have hv := congrArg bitsToNat h
  rwa [bitsToNat_formatBits, bitsToNat_formatBits] at hv

theorem natBits_length_le {n k : Nat} (h : n < 2 ^ k) : (natBits n).length ≤ k := by
  induction k generalizing n with
  | zero =>
      have hn : n = 0 := by simpa using h
      subst hn
      rw [natBits_eq]
      simp
  | succ k ih =>
      rw [natBits_eq]
      by_cases h0 : n = 0
      · simp [h0]
      · simp only [if_neg h0, List.length_append, List.length_cons, List.length_nil]
        have hdiv : n / 2 < 2 ^ k := by
          rw [Nat.div_lt_iff_lt_mul (by norm_num : (0:Nat) < 2)]
          rw [pow_succ] at h
          omega
        have := ih hdiv
        omega

theorem formatBin_length_pos (n : Nat) : 1 ≤ (formatBin n).length := by
  unfold formatBin
  split
  · simp
  · rw [natBits_eq]
    split
    · omega
    · simp

theorem formatBits_length {w n : Nat} (hw : 1 ≤ w) (h : n < 2 ^ w) :
    (formatBits w n).length = w := by
  have hle : (formatBin n).length ≤ w := by
    unfold formatBin
    split
    · simpa using hw
    · exact natBits_length_le h
  simp only [formatBits, List.length_append, List.length_replicate]
  omega

theorem formatBits_ne_nil (w n : Nat) : formatBits w n ≠ [] := by
  have := formatBin_length_pos n
  intro h
  have := congrArg List.length h
  simp only [formatBits, List.length_append, List.length_replicate, List.length_nil] at this
  omega

theorem bitsToNat_lt (l : List Bool) : bitsToNat l < 2 ^ l.length := by
  induction l using List.reverseRecOn with
  | nil => simp [bitsToNat]
  | append_singleton l b ih =>
      rw [bitsToNat_concat, List.length_append, List.length_cons, List.length_nil, pow_succ]
      cases b <;> simp <;> linarith

theorem bitsToNat_inj :
    ∀ l1 l2 : List Bool, l1.length = l2.length → bitsToNat l1 = bitsToNat l2 → l1 = l2 := by
  intro l1
  induction l1 using List.reverseRecOn with
  | nil =>
      intro l2 hl _
      exact (List.length_eq_zero.mp hl.symm).symm
  | append_singleton l b ih =>
      intro l2 hl hv
      induction l2 using List.reverseRecOn with
      | nil => simp at hl
      | append_singleton l2' b2 _ =>
          rw [bitsToNat_concat, bitsToNat_concat] at hv
          have hlen : l.length = l2'.length := by
            simp only [List.length_append, List.length_cons, List.length_nil] at hl
            omega
          have hb : b = b2 ∧ bitsToNat l = bitsToNat l2' := by
            cases b <;> cases b2 <;> simp at hv ⊢ <;> omega
          rw [ih l2' hlen hb.2, hb.1]

theorem formatBits_of_bitsToNat {w : Nat} (l : List Bool) (hw : 1 ≤ w) (hl : l.length = w) :
    formatBits w (bitsToNat l) = l := by
  apply bitsToNat_inj
  · rw [formatBits_length hw (hl ▸ bitsToNat_lt l), hl]
  · rw [bitsToNat_formatBits]

/-! ### Packing and unpacking -/

theorem packBits_eq (l : List Bool) :
    packBits l =
      if l = [] then [] else bitsToNat (padTo8 (l.take 8)) :: packBits (l.drop 8) := by
  rcases l with _ | ⟨b0, _ | ⟨b1, _ | ⟨b2, _ | ⟨b3, _ | ⟨b4, _ | ⟨b5, _ | ⟨b6, _ | ⟨b7, rest⟩⟩⟩⟩⟩⟩⟩⟩
  · rfl
  all_goals simp [packBits, padTo8]

theorem packBits_length_aux :
    ∀ (n : Nat) (l : List Bool), l.length ≤ n → (packBits l).length = (l.length + 7) / 8 := by
  intro n
  induction n with
  | zero =>
      intro l h
      have : l = [] := List.length_eq_zero.mp (by omega)
      subst this
      decide
  | succ n ih =>
      intro l hl
      by_cases h0 : l = []
      · subst h0; decide
      · rw [packBits_eq, if_neg h0, List.length_cons,
          ih (l.drop 8) (by rw [List.length_drop]; omega), List.length_drop]
        have : 0 < l.length := List.length_pos.mpr h0
        omega

theorem packBits_length (l : List Bool) : (packBits l).length = (l.length + 7) / 8 :=
  packBits_length_aux l.length l le_rfl

theorem bytesToBits_cons (b : Nat) (rest : List Nat) :
    bytesToBits (b :: rest) = formatBits 8 b ++ bytesToBits rest := by
  simp [bytesToBits]

theorem bytesToBits_append (a b : List Nat) :
    bytesToBits (a ++ b) = bytesToBits a ++ bytesToBits b := by
  simp [bytesToBits]

theorem bytesToBits_zero_bytes (k : Nat) :
    bytesToBits (List.replicate k 0) = List.replicate (8 * k) false := by
  induction k with
  | zero => rfl
  | succ m ih =>
      rw [List.replicate_succ, bytesToBits_cons, ih,
        show formatBits 8 0 = List.replicate 8 false from rfl,
        show 8 * (m + 1) = 8 + 8 * m by ring, List.replicate_add]

theorem padTo8_length (l : List Bool) (h : l.length ≤ 8) : (padTo8 l).length = 8 := by
  simp only [padTo8, List.length_append, List.length_replicate]
  omega

theorem bytesToBits_packBits_aux :
    ∀ (n : Nat) (l : List Bool), l.length ≤ n →
      ∃ k, bytesToBits (packBits l) = l ++ List.replicate k false := by
  intro n
  induction n with
  | zero =>
      intro l h
      have : l = [] := List.length_eq_zero.mp (by omega)
      subst this
      exact ⟨0, rfl⟩
  | succ n ih =>
      intro l hl
      by_cases h0 : l = []
      · subst h0; exact ⟨0, rfl⟩
      · rw [packBits_eq, if_neg h0, bytesToBits_cons]
        have hpad : formatBits 8 (bitsToNat (padTo8 (l.take 8))) = padTo8 (l.take 8) := by
          apply formatBits_of_bitsToNat _ (by norm_num)
          exact padTo8_length _ (by rw [List.length_take]; omega)
        rw [hpad]
        obtain ⟨k, hk⟩ := ih (l.drop 8) (by rw [List.length_drop]; omega)
        rw [hk]
        by_cases hlen : 8 ≤ l.length
        · have htake8 : padTo8 (l.take 8) = l.take 8 := by
            have : (l.take 8).length = 8 := by rw [List.length_take]; omega
            simp [padTo8, this]
          rw [htake8, ← List.append_assoc, List.take_append_drop]
          exact ⟨k, rfl⟩
        · have hdrop : l.drop 8 = [] := List.drop_eq_nil_of_le (by omega)
          have htake : l.take 8 = l := List.take_of_length_le (by omega)
          rw [hdrop, htake]
          refine ⟨(8 - l.length) + k, ?_⟩
          simp only [List.nil_append, padTo8]
          rw [List.append_assoc, ← List.replicate_add]

theorem bytesToBits_packBits (l : List Bool) :
    ∃ k, bytesToBits (packBits l) = l ++ List.replicate k false :=
  bytesToBits_packBits_aux l.length l le_rfl

/-! ### The forward dictionary lookup -/

theorem lastAssign_isSome_iff :
    ∀ (l : List (List Char)) (s : List Char) (b : Nat),
      (lastAssign s b l).isSome ↔ s ∈ l := by
  intro l
  induction l with
  | nil => intro s b; simp [lastAssign]
  | cons e rest ih =>
      intro s b
      show (match lastAssign s (b + 1) rest with
        | some j => some j
        | none => if e = s then some b else none).isSome ↔ _
      cases hrec : lastAssign s (b + 1) rest with
      | some j =>
          simp only [Option.isSome_some, true_iff]
          have : s ∈ rest := (ih s (b + 1)).mp (by rw [hrec]; rfl)
          exact List.mem_cons_of_mem e this
      | none =>
          by_cases he : e = s
          · simp [he, List.mem_cons]
          · simp only [if_neg he, List.mem_cons]
            constructor
            · intro hcon; simp at hcon
            · rintro (rfl | hmem)
              · exact absurd rfl he
              · have hmm := (ih s (b + 1)).mpr hmem
                rw [hrec] at hmm
                simp at hmm

theorem lastAssign_none {l : List (List Char)} {s : List Char} (b : Nat) (h : s ∉ l) :
    lastAssign s b l = none := by
  cases hrec : lastAssign s b l with
  | none => rfl
  | some j =>
      have : s ∈ l := (lastAssign_isSome_iff l s b).mp (by rw [hrec]; rfl)
      exact absurd this h

theorem lastAssign_spec :
    ∀ (l : List (List Char)) (s : List Char) (b i : Nat),
      lastAssign s b l = some i →
      b ≤ i ∧ i - b < l.length ∧ l[i - b]? = some s := by
  intro l
  induction l with
  | nil => intro s b i h; simp [lastAssign] at h
  | cons e rest ih =>
      intro s b i h
      rw [show lastAssign s b (e :: rest) =
        (match lastAssign s (b + 1) rest with
          | some j => some j
          | none => if e = s then some b else none) from rfl] at h
      cases hrec : lastAssign s (b + 1) rest with
      | some j =>
          rw [hrec] at h
          have hj : j = i := by simpa using h
          obtain ⟨h1, h2, h3⟩ := ih s (b + 1) j hrec
          rw [← hj]
          refine ⟨by omega, by simp only [List.length_cons]; omega, ?_⟩
          have hs : j - b = (j - (b + 1)) + 1 := by omega
          rw [hs, List.getElem?_cons_succ]
          exact h3
      | none =>
          rw [hrec] at h
          by_cases he : e = s
          · rw [if_pos he] at h
            have hb : b = i := by simpa using h
            subst hb
            simp [he]
          · rw [if_neg he] at h
            simp at h

theorem lastAssign_nodup :
    ∀ (l : List (List Char)), l.Nodup → ∀ (b v : Nat) (hv : v < l.length),
      lastAssign (l.get ⟨v, hv⟩) b l = some (b + v) := by
  intro l
  induction l with
  | nil => intro _ b v hv; simp at hv
  | cons e rest ih =>
      intro hnd b v hv
      obtain ⟨hnotmem, hnd'⟩ := List.nodup_cons.mp hnd
      show (match lastAssign ((e :: rest).get ⟨v, hv⟩) (b + 1) rest with
        | some j => some j
        | none => if e = (e :: rest).get ⟨v, hv⟩ then some b else none) = _
      cases v with
      | zero =>
          simp only [List.get]
          rw [lastAssign_none (b + 1) hnotmem]
          simp
      | succ v' =>
          simp only [List.get]
          rw [ih hnd' (b + 1) v' (by simpa using hv)]
          simp
          omega

/-! ### The reverse dictionary lookup -/

theorem invAssign_none {cs : List (List Char)} {w : Nat} {code : List Bool}
    (hmiss : ∀ j e, formatBits w j = code → lastAssign e 0 cs ≠ some j) :
    ∀ (l : List (List Char)) (b : Nat), invAssign cs w code b l = none := by
  intro l
  induction l with
  | nil => intro b; rfl
  | cons e rest ih =>
      intro b
      show (if formatBits w b = code ∧ lastAssign e 0 cs = some b then some e
        else invAssign cs w code (b + 1) rest) = none
      rw [if_neg, ih (b + 1)]
      rintro ⟨h1, h2⟩
      exact hmiss b e h1 h2

theorem invAssign_hit {cs : List (List Char)} {w i : Nat} {s : List Char}
    (hla : lastAssign s 0 cs = some i) (hi : i < cs.length) (hget : cs[i]? = some s) :
    ∀ (l : List (List Char)) (b : Nat), cs.drop b = l → b ≤ i →
      invAssign cs w (formatBits w i) b l = some s := by
  intro l
  induction l with
  | nil =>
      intro b hdrop hb
      have : cs.length ≤ b := by
        by_contra hlt
        push_neg at hlt
        have := List.drop_eq_getElem_cons hlt
        rw [hdrop] at this
        exact List.cons_ne_nil _ _ this.symm
      omega
  | cons e rest ih =>
      intro b hdrop hb
      have hblen : b < cs.length := by
        by_contra hge
        push_neg at hge
        rw [List.drop_eq_nil_of_le hge] at hdrop
        exact List.cons_ne_nil _ _ hdrop.symm
      have hcons := List.drop_eq_getElem_cons hblen
      rw [hdrop] at hcons
      have he : e = cs[b] := by
        injection hcons with h1 _
      have hrest : rest = cs.drop (b + 1) := by
        injection hcons with _ h2
      show (if formatBits w b = formatBits w i ∧ lastAssign e 0 cs = some b then some e
        else invAssign cs w (formatBits w i) (b + 1) rest) = some s
      by_cases hbi : b = i
      · subst hbi
        have hes : e = s := by
          have hget2 := hget
          rw [List.getElem?_eq_getElem hblen] at hget2
          exact he.trans (Option.some.inj hget2)
        rw [if_pos ⟨rfl, by rw [hes]; exact hla⟩, hes]
      · rw [if_neg, ih (b + 1) hrest.symm (by omega)]
        rintro ⟨h1, _⟩
        exact hbi (formatBits_inj h1)

/-! ### Invariants established by construction -/

theorem init_inv {cs : List (List Char)} {t : TextCompressor}
    (h : TextCompressor.init cs = .ok t) :
    t.char_set = cs ∧ t.num_chars = cs.length ∧
      t.bits_per_char = Nat.clog 2 (cs.length + 1) ∧
      t.eos_code = formatBits t.bits_per_char cs.length ∧
      cs ≠ [] ∧ 1 ≤ t.bits_per_char ∧ t.bits_per_char ≤ 5 ∧
      cs.length + 1 ≤ 2 ^ t.bits_per_char := by
  unfold TextCompressor.init at h
  by_cases h1 : cs = []
  · rw [if_pos h1] at h
    exact absurd h (by simp)
  · simp only [if_neg h1] at h
    by_cases h2 : 5 < Nat.clog 2 (cs.length + 1)
    · rw [if_pos h2] at h
      exact absurd h (by simp)
    · rw [if_neg h2] at h
      injection h with h'
      subst h'
      refine ⟨rfl, rfl, rfl, rfl, h1, ?_,
        (by show Nat.clog 2 (cs.length + 1) ≤ 5; omega), ?_⟩
      · exact Nat.clog_pos (by norm_num)
          (by have := List.length_pos.mpr h1; omega)
      · exact Nat.le_pow_clog (by norm_num) _

theorem char_to_code_isSome {t : TextCompressor} {s : List Char}
    (h : s ∈ t.char_set) : (t.char_to_code s).isSome := by
  have hsome := (lastAssign_isSome_iff t.char_set s 0).mpr h
  rw [TextCompressor.char_to_code]
  cases hla : lastAssign s 0 t.char_set with
  | none => rw [hla] at hsome; simp at hsome
  | some i => rfl

theorem table_symbol_facts {cs : List (List Char)} {t : TextCompressor}
    (hmk : TextCompressor.init cs = .ok t) {s : List Char} {i : Nat}
    (hla : lastAssign s 0 t.char_set = some i) :
    i < cs.length ∧
      t.char_to_code s = some (formatBits t.bits_per_char i) ∧
      (formatBits t.bits_per_char i).length = t.bits_per_char ∧
      formatBits t.bits_per_char i ≠ t.eos_code ∧
      t.code_to_char (formatBits t.bits_per_char i) = some (some s) := by
  obtain ⟨hcs, hnum, hw, heos, hne, hw1, hw5, hbound⟩ := init_inv hmk
  obtain ⟨hb0, hlt0, hget0⟩ := lastAssign_spec t.char_set s 0 i hla
  simp only [Nat.sub_zero] at hlt0 hget0
  have hicd : i < cs.length := by rw [← hcs]; exact hlt0
  have hiw : i < 2 ^ t.bits_per_char := lt_of_lt_of_le (by omega) hbound
  have hlen : (formatBits t.bits_per_char i).length = t.bits_per_char :=
    formatBits_length hw1 hiw
  have hneq : formatBits t.bits_per_char i ≠ t.eos_code := by
    rw [heos]
    intro hcontra
    have := formatBits_inj hcontra
    omega
  refine ⟨hicd, ?_, hlen, hneq, ?_⟩
  · simp [TextCompressor.char_to_code, hla]
  · rw [TextCompressor.code_to_char, if_neg hneq,
      invAssign_hit hla hlt0 hget0 t.char_set 0 rfl (by omega)]
    rfl

/-! ### The scanning loop: fuel adequacy and functional equation -/

theorem decodeLoopAux_nil (t : TextCompressor) (f : Nat) :
    decodeLoopAux t f [] = .ok [] := by
  cases f <;> rfl

theorem decodeLoopAux_cons (t : TextCompressor) (f : Nat) (b : Bool) (bs : List Bool) :
    decodeLoopAux t (f + 1) (b :: bs) =
      if ((b :: bs).take t.bits_per_char).length < t.bits_per_char then .ok []
      else if (b :: bs).take t.bits_per_char = t.eos_code then .ok []
      else
        match t.code_to_char ((b :: bs).take t.bits_per_char) with
        | some (some s) =>
            (decodeLoopAux t f ((b :: bs).drop t.bits_per_char)).map (fun r => s ++ r)
        | _ => .error (.invalidCode ((b :: bs).take t.bits_per_char)) := rfl

theorem decodeLoopAux_fuel (t : TextCompressor) (hw : 1 ≤ t.bits_per_char) :
    ∀ f1 f2 bits, bits.length ≤ f1 → bits.length ≤ f2 →
      decodeLoopAux t f1 bits = decodeLoopAux t f2 bits := by
  intro f1
  induction f1 with
  | zero =>
      intro f2 bits h1 _
      have : bits = [] := List.length_eq_zero.mp (by omega)
      subst this
      rw [decodeLoopAux_nil, decodeLoopAux_nil]
  | succ f ih =>
      intro f2 bits h1 h2
      rcases bits with _ | ⟨b, bs⟩
      · rw [decodeLoopAux_nil, decodeLoopAux_nil]
      · rcases f2 with _ | f2'
        · simp at h2
        · rw [decodeLoopAux_cons, decodeLoopAux_cons]
          by_cases hshort : ((b :: bs).take t.bits_per_char).length < t.bits_per_char
          · rw [if_pos hshort, if_pos hshort]
          · rw [if_neg hshort, if_neg hshort]
            by_cases heos : (b :: bs).take t.bits_per_char = t.eos_code
            · rw [if_pos heos, if_pos heos]
            · rw [if_neg heos, if_neg heos]
              have hlen := List.length_drop t.bits_per_char (b :: bs)
              simp only [List.length_cons] at hlen
              have hdl : ((b :: bs).drop t.bits_per_char).length ≤ f := by
                simp only [List.length_cons] at h1
                omega
              have hdl2 : ((b :: bs).drop t.bits_per_char).length ≤ f2' := by
                simp only [List.length_cons] at h2
                omega
              cases hcc : t.code_to_char ((b :: bs).take t.bits_per_char) with
              | none => rfl
              | some o =>
                  cases o with
                  | none => rfl
                  | some s => rw [ih f2' _ hdl hdl2]

theorem decodeLoop_eq (t : TextCompressor) (hw : 1 ≤ t.bits_per_char) (bits : List Bool) :
    t.decodeLoop bits =
      if bits = [] then .ok []
      else if (bits.take t.bits_per_char).length < t.bits_per_char then .ok []
      else if bits.take t.bits_per_char = t.eos_code then .ok []
      else
        match t.code_to_char (bits.take t.bits_per_char) with
        | some (some s) =>
            (t.decodeLoop (bits.drop t.bits_per_char)).map (fun r => s ++ r)
        | _ => .error (.invalidCode (bits.take t.bits_per_char)) := by
  rcases bits with _ | ⟨b, bs⟩
  · rfl
  · rw [if_neg (List.cons_ne_nil b bs)]
    show decodeLoopAux t (bs.length + 1) (b :: bs) = _
    rw [decodeLoopAux_cons]
    by_cases hshort : ((b :: bs).take t.bits_per_char).length < t.bits_per_char
    · rw [if_pos hshort, if_pos hshort]
    · rw [if_neg hshort, if_neg hshort]
      by_cases heos : (b :: bs).take t.bits_per_char = t.eos_code
      · rw [if_pos heos, if_pos heos]
      · rw [if_neg heos, if_neg heos]
        cases hcc : t.code_to_char ((b :: bs).take t.bits_per_char) with
        | none => rfl
        | some o =>
            cases o with
            | none => rfl
            | some s =>
                rw [TextCompressor.decodeLoop,
                  decodeLoopAux_fuel t hw bs.length ((b :: bs).drop t.bits_per_char).length
                    ((b :: bs).drop t.bits_per_char)
                    (by
                      have hlen := List.length_drop t.bits_per_char (b :: bs)
                      simp only [List.length_cons] at hlen
                      omega) le_rfl]

theorem hitsEosAux_nil (t : TextCompressor) (f : Nat) : hitsEosAux t f [] = false := by
  cases f <;> rfl

theorem hitsEosAux_cons (t : TextCompressor) (f : Nat) (b : Bool) (bs : List Bool) :
    hitsEosAux t (f + 1) (b :: bs) =
      if ((b :: bs).take t.bits_per_char).length < t.bits_per_char then false
      else if (b :: bs).take t.bits_per_char = t.eos_code then true
      else
        match t.code_to_char ((b :: bs).take t.bits_per_char) with
        | some (some _) => hitsEosAux t f ((b :: bs).drop t.bits_per_char)
        | _ => false := rfl

theorem hitsEosAux_fuel (t : TextCompressor) (hw : 1 ≤ t.bits_per_char) :
    ∀ f1 f2 bits, bits.length ≤ f1 → bits.length ≤ f2 →
      hitsEosAux t f1 bits = hitsEosAux t f2 bits := by
  intro f1
  induction f1 with
  | zero =>
      intro f2 bits h1 _
      have : bits = [] := List.length_eq_zero.mp (by omega)
      subst this
      rw [hitsEosAux_nil, hitsEosAux_nil]
  | succ f ih =>
      intro f2 bits h1 h2
      rcases bits with _ | ⟨b, bs⟩
      · rw [hitsEosAux_nil, hitsEosAux_nil]
      · rcases f2 with _ | f2'
        · simp at h2
        · rw [hitsEosAux_cons, hitsEosAux_cons]
          by_cases hshort : ((b :: bs).take t.bits_per_char).length < t.bits_per_char
          · rw [if_pos hshort, if_pos hshort]
          · rw [if_neg hshort, if_neg hshort]
            by_cases heos : (b :: bs).take t.bits_per_char = t.eos_code
            · rw [if_pos heos, if_pos heos]
            · rw [if_neg heos, if_neg heos]
              have hlen := List.length_drop t.bits_per_char (b :: bs)
              simp only [List.length_cons] at hlen
              have hdl : ((b :: bs).drop t.bits_per_char).length ≤ f := by
                simp only [List.length_cons] at h1
                omega
              have hdl2 : ((b :: bs).drop t.bits_per_char).length ≤ f2' := by
                simp only [List.length_cons] at h2
                omega
              cases hcc : t.code_to_char ((b :: bs).take t.bits_per_char) with
              | none => rfl
              | some o =>
                  cases o with
                  | none => rfl
                  | some s => rw [ih f2' _ hdl hdl2]

theorem decodeHitsEos_eq (t : TextCompressor) (hw : 1 ≤ t.bits_per_char) (bits : List Bool) :
    t.decodeHitsEos bits =
      if bits = [] then false
      else if (bits.take t.bits_per_char).length < t.bits_per_char then false
      else if bits.take t.bits_per_char = t.eos_code then true
      else
        match t.code_to_char (bits.take t.bits_per_char) with
        | some (some _) => t.decodeHitsEos (bits.drop t.bits_per_char)
        | _ => false := by
  rcases bits with _ | ⟨b, bs⟩
  · rfl
  · rw [if_neg (List.cons_ne_nil b bs)]
    show hitsEosAux t (bs.length + 1) (b :: bs) = _
    rw [hitsEosAux_cons]
    by_cases hshort : ((b :: bs).take t.bits_per_char).length < t.bits_per_char
    · rw [if_pos hshort, if_pos hshort]
    · rw [if_neg hshort, if_neg hshort]
      by_cases heos : (b :: bs).take t.bits_per_char = t.eos_code
      · rw [if_pos heos, if_pos heos]
      · rw [if_neg heos, if_neg heos]
        cases hcc : t.code_to_char ((b :: bs).take t.bits_per_char) with
        | none => rfl
        | some o =>
            cases o with
            | none => rfl
            | some s =>
                rw [TextCompressor.decodeHitsEos,
                  hitsEosAux_fuel t hw bs.length ((b :: bs).drop t.bits_per_char).length
                    ((b :: bs).drop t.bits_per_char)
                    (by
                      have hlen := List.length_drop t.bits_per_char (b :: bs)
                      simp only [List.length_cons] at hlen
                      omega) le_rfl]

/-! ### Single-window behaviour of the scanning loop -/

theorem decodeLoop_step_symbol (t : TextCompressor) (hw : 1 ≤ t.bits_per_char)
    {code rest : List Bool} {s : List Char}
    (hlen : code.length = t.bits_per_char) (hne : code ≠ t.eos_code)
    (hcc : t.code_to_char code = some (some s)) :
    t.decodeLoop (code ++ rest) = (t.decodeLoop rest).map (fun r => s ++ r) := by
  have hcode_ne : code ≠ [] := by
    intro hnil
    rw [hnil] at hlen
    simp only [List.length_nil] at hlen
    omega
  have htake : (code ++ rest).take t.bits_per_char = code := by
    rw [← hlen]; exact List.take_left code rest
  have hdrop : (code ++ rest).drop t.bits_per_char = rest := by
    rw [← hlen]; exact List.drop_left code rest
  rw [decodeLoop_eq t hw, if_neg (by simp [hcode_ne]), htake, hdrop,
    if_neg (by rw [hlen]; exact lt_irrefl _), if_neg hne, hcc]

theorem decodeLoop_eos (t : TextCompressor) (hw : 1 ≤ t.bits_per_char)
    (hlen : t.eos_code.length = t.bits_per_char) (rest : List Bool) :
    t.decodeLoop (t.eos_code ++ rest) = .ok [] := by
  have hcode_ne : t.eos_code ≠ [] := by
    intro hnil
    rw [hnil] at hlen
    simp only [List.length_nil] at hlen
    omega
  have htake : (t.eos_code ++ rest).take t.bits_per_char = t.eos_code := by
    rw [← hlen]; exact List.take_left _ _
  rw [decodeLoop_eq t hw, if_neg (by simp [hcode_ne]), htake,
    if_neg (by rw [hlen]; exact lt_irrefl _), if_pos rfl]

theorem decodeLoop_invalid (t : TextCompressor) (hw : 1 ≤ t.bits_per_char)
    {code rest : List Bool}
    (hlen : code.length = t.bits_per_char) (hcc : t.code_to_char code = none) :
    t.decodeLoop (code ++ rest) = .error (.invalidCode code) := by
  have hne : code ≠ t.eos_code := by
    intro h
    rw [TextCompressor.code_to_char, if_pos h] at hcc
    simp at hcc
  have hcode_ne : code ≠ [] := by
    intro hnil
    rw [hnil] at hlen
    simp only [List.length_nil] at hlen
    omega
  have htake : (code ++ rest).take t.bits_per_char = code := by
    rw [← hlen]; exact List.take_left code rest
  rw [decodeLoop_eq t hw, if_neg (by simp [hcode_ne]), htake,
    if_neg (by rw [hlen]; exact lt_irrefl _), if_neg hne, hcc]

/-! ### Decoding an encoded stream -/

theorem decodeLoop_encode {cs : List (List Char)} {t : TextCompressor}
    (hmk : TextCompressor.init cs = .ok t) :
    ∀ (l : List Char), (∀ c ∈ l, [c] ∈ t.char_set) → ∀ extra,
      t.decodeLoop
          ((l.map (fun c => (t.char_to_code [c]).getD [])).flatten ++ (t.eos_code ++ extra)) =
        .ok l := by
  obtain ⟨hcs, hnum, hwdef, heos, hne0, hw1, hw5, hbound⟩ := init_inv hmk
  intro l
  induction l with
  | nil =>
      intro _ extra
      simp only [List.map_nil, List.flatten_nil, List.nil_append]
      have hlen : t.eos_code.length = t.bits_per_char := by
        rw [heos]
        exact formatBits_length hw1 (lt_of_lt_of_le (by omega) hbound)
      exact decodeLoop_eos t hw1 hlen extra
  | cons c l' ih =>
      intro hmem extra
      have hc : [c] ∈ t.char_set := hmem c (List.mem_cons_self c l')
      have hsome : (lastAssign [c] 0 t.char_set).isSome :=
        (lastAssign_isSome_iff _ _ _).mpr hc
      obtain ⟨i, hla⟩ := Option.isSome_iff_exists.mp hsome
      obtain ⟨hi, hctc, hclen, hcneq, hcc⟩ := table_symbol_facts hmk hla
      simp only [List.map_cons, List.flatten_cons, hctc, Option.getD_some, List.append_assoc]
      rw [decodeLoop_step_symbol t hw1 hclen hcneq hcc,
        ih (fun c hc => hmem c (List.mem_cons_of_mem _ hc)) extra]
      rfl

/-! ### Streams that terminate through the EOS branch -/

theorem hitsEos_decode (t : TextCompressor) (hw : 1 ≤ t.bits_per_char) :
    ∀ (n : Nat) (bits : List Bool), bits.length ≤ n → t.decodeHitsEos bits = true →
      ∃ r, t.decodeLoop bits = .ok r ∧ ∀ extra, t.decodeLoop (bits ++ extra) = .ok r := by
  intro n
  induction n with
  | zero =>
      intro bits hb hhit
      have : bits = [] := List.length_eq_zero.mp (by omega)
      subst this
      rw [show t.decodeHitsEos [] = false from rfl] at hhit
      simp at hhit
  | succ n ih =>
      intro bits hb hhit
      rw [decodeHitsEos_eq t hw] at hhit
      by_cases h0 : bits = []
      · rw [if_pos h0] at hhit; simp at hhit
      · rw [if_neg h0] at hhit
        by_cases hshort : (bits.take t.bits_per_char).length < t.bits_per_char
        · rw [if_pos hshort] at hhit; simp at hhit
        · rw [if_neg hshort] at hhit
          have hwle : t.bits_per_char ≤ bits.length := by
            rw [List.length_take] at hshort
            omega
          by_cases heos : bits.take t.bits_per_char = t.eos_code
          · refine ⟨[], ?_, ?_⟩
            · rw [decodeLoop_eq t hw, if_neg h0, if_neg hshort, if_pos heos]
            · intro extra
              rw [decodeLoop_eq t hw, if_neg (by simp [h0]),
                List.take_append_of_le_length hwle, if_neg hshort, if_pos heos]
          · rw [if_neg heos] at hhit
            cases hcc : t.code_to_char (bits.take t.bits_per_char) with
            | none => rw [hcc] at hhit; simp at hhit
            | some o =>
                cases o with
                | none => rw [hcc] at hhit; simp at hhit
                | some s =>
                    rw [hcc] at hhit
                    have hdlen : (bits.drop t.bits_per_char).length ≤ n := by
                      have hld := List.length_drop t.bits_per_char bits
                      have h0len : 0 < bits.length := List.length_pos.mpr h0
                      omega
                    obtain ⟨r, hr1, hr2⟩ := ih (bits.drop t.bits_per_char) hdlen hhit
                    refine ⟨s ++ r, ?_, ?_⟩
                    · rw [decodeLoop_eq t hw, if_neg h0, if_neg hshort, if_neg heos, hcc,
                        hr1]
                      rfl
                    · intro extra
                      rw [decodeLoop_eq t hw, if_neg (by simp [h0]),
                        List.take_append_of_le_length hwle, if_neg hshort, if_neg heos, hcc,
                        List.drop_append_of_le_length hwle, hr2 extra]
                      rfl

/-! ### The encoder -/

theorem compress_eq_of_find_some (t : TextCompressor) (input : List Char) (c : Char)
    (h : (input.map Char.toLower).find? (fun c => (t.char_to_code [c]).isNone) = some c) :
    t.compress input = .error (.unsupportedSymbol c) := by
  simp only [TextCompressor.compress, h]

theorem compress_eq_of_find_none (t : TextCompressor) (input : List Char)
    (h : (input.map Char.toLower).find? (fun c => (t.char_to_code [c]).isNone) = none) :
    t.compress input =
      .ok (packBits (t.encodeBits (input.map Char.toLower)),
        (t.encodeBits (input.map Char.toLower)).length - t.bits_per_char) := by
  simp only [TextCompressor.compress, h]

theorem char_to_code_not_isNone_iff (t : TextCompressor) (s : List Char) :
    ¬(t.char_to_code s).isNone = true ↔ s ∈ t.char_set := by
  constructor
  · intro h
    cases hla : lastAssign s 0 t.char_set with
    | none =>
        exfalso
        apply h
        rw [TextCompressor.char_to_code, hla]
        rfl
    | some i => exact (lastAssign_isSome_iff _ _ _).mp (by rw [hla]; rfl)
  · intro hmem hcon
    have hsome := char_to_code_isSome hmem
    cases hx : t.char_to_code s with
    | some _ => rw [hx] at hcon; simp at hcon
    | none => rw [hx] at hsome; simp at hsome

theorem encode_flatten_length {cs : List (List Char)} {t : TextCompressor}
    (hmk : TextCompressor.init cs = .ok t) :
    ∀ l : List Char, (∀ c ∈ l, [c] ∈ t.char_set) →
      ((l.map (fun c => (t.char_to_code [c]).getD [])).flatten).length =
        l.length * t.bits_per_char := by
  intro l
  induction l with
  | nil => intro _; simp
  | cons c l' ih =>
      intro hmem
      have hc : [c] ∈ t.char_set := hmem c (List.mem_cons_self c l')
      obtain ⟨i, hla⟩ := Option.isSome_iff_exists.mp ((lastAssign_isSome_iff _ _ _).mpr hc)
      obtain ⟨hi, hctc, hclen, _, _⟩ := table_symbol_facts hmk hla
      simp only [List.map_cons, List.flatten_cons, List.length_append, hctc, Option.getD_some,
        hclen, ih (fun c hc => hmem c (List.mem_cons_of_mem _ hc)), List.length_cons]
      ring

theorem encodeBits_length {cs : List (List Char)} {t : TextCompressor}
    (hmk : TextCompressor.init cs = .ok t) (l : List Char)
    (hmem : ∀ c ∈ l, [c] ∈ t.char_set) :
    (t.encodeBits l).length = l.length * t.bits_per_char + t.bits_per_char := by
  obtain ⟨hcs, hnum, hwdef, heos, hne0, hw1, hw5, hbound⟩ := init_inv hmk
  have heoslen : t.eos_code.length = t.bits_per_char := by
    rw [heos]
    exact formatBits_length hw1 (lt_of_lt_of_le (by omega) hbound)
  rw [TextCompressor.encodeBits, List.length_append, encode_flatten_length hmk l hmem, heoslen]

/-! ### The concrete tables are exactly what construction produces -/

theorem init_abc : TextCompressor.init [['a'], ['b'], ['c']] = .ok tableABC := by
  simp [TextCompressor.init, Nat.clog, tableABC, formatBits, formatBin, natBits, natBitsAux]

theorem init_ab : TextCompressor.init [['a'], ['b']] = .ok tableAB := by
  simp [TextCompressor.init, Nat.clog, tableAB, formatBits, formatBin, natBits, natBitsAux]

theorem init_dup : TextCompressor.init [['a'], ['b'], ['a']] = .ok tableDup := by
  simp [TextCompressor.init, Nat.clog, tableDup, formatBits, formatBin, natBits, natBitsAux]

/-! ### Claim theorems -/

/-- C1: for every table built by construction and every text whose
characters all case-fold into the table's alphabet, compression succeeds
and decompressing the produced byte buffer returns the case-folded
(lowercased) text. -/
theorem claim1_roundtrip {cs : List (List Char)} {t : TextCompressor}
    (hmk : TextCompressor.init cs = .ok t) (text : List Char)
    (hall : ∀ c ∈ text, [c.toLower] ∈ t.char_set) :
    t.compress text =
      .ok (packBits (t.encodeBits (text.map Char.toLower)),
        (t.encodeBits (text.map Char.toLower)).length - t.bits_per_char) ∧
    t.decompress (packBits (t.encodeBits (text.map Char.toLower))) =
      .ok (text.map Char.toLower) := by
  obtain ⟨hcs, hnum, hwdef, heos, hne0, hw1, hw5, hbound⟩ := init_inv hmk
  have hmem : ∀ c ∈ text.map Char.toLower, [c] ∈ t.char_set := by
    intro c hc
    obtain ⟨c0, hc0, rfl⟩ := List.mem_map.mp hc
    exact hall c0 hc0
  have hfind : (text.map Char.toLower).find? (fun c => (t.char_to_code [c]).isNone) = none := by
    rw [List.find?_eq_none]
    intro c hc
    exact (char_to_code_not_isNone_iff t [c]).mpr (hmem c hc)
  refine ⟨compress_eq_of_find_none t text hfind, ?_⟩
  rw [TextCompressor.decompress]
  obtain ⟨k, hk⟩ := bytesToBits_packBits (t.encodeBits (text.map Char.toLower))
  rw [hk, TextCompressor.encodeBits, List.append_assoc]
  exact decodeLoop_encode hmk (text.map Char.toLower) hmem (List.replicate k false)

/-- C1 witness: the a, b, c table on the text "aB". -/
theorem claim1_roundtrip_witness :
    tableABC.compress ['a', 'B'] = .ok ([28], 4) ∧
    tableABC.decompress [28] = .ok ['a', 'b'] :=
  claim1_roundtrip init_abc ['a', 'B'] (by decide)

/-- C2: construction fails with `InvalidTable` exactly on an empty list or
more than 31 entries; on success the code width is the ceiling base-2
logarithm of N+1, i.e. the least width whose code space covers N+1 values,
and it lies between 1 and 5. -/
theorem claim2_table_construction (cs : List (List Char)) :
    (cs = [] → TextCompressor.init cs = .error .invalidTable) ∧
    (31 < cs.length → TextCompressor.init cs = .error .invalidTable) ∧
    (cs ≠ [] → cs.length ≤ 31 →
      ∃ t, TextCompressor.init cs = .ok t ∧
        t.bits_per_char = Nat.clog 2 (cs.length + 1) ∧
        cs.length + 1 ≤ 2 ^ t.bits_per_char ∧
        (∀ w, cs.length + 1 ≤ 2 ^ w → t.bits_per_char ≤ w) ∧
        1 ≤ t.bits_per_char ∧ t.bits_per_char ≤ 5) := by
  refine ⟨?_, ?_, ?_⟩
  · intro h
    rw [TextCompressor.init, if_pos h]
  · intro h
    have hne : cs ≠ [] := by
      intro h0
      rw [h0] at h
      simp at h
    have h5 : 5 < Nat.clog 2 (cs.length + 1) := by
      have h32 : (2 : Nat) ^ 5 < cs.length + 1 := by
        have : (2 : Nat) ^ 5 = 32 := by norm_num
        omega
      exact (Nat.pow_lt_iff_lt_clog (by norm_num)).mp h32
    simp only [TextCompressor.init, if_neg hne, if_pos h5]
  · intro h1 h2
    have hle : Nat.clog 2 (cs.length + 1) ≤ 5 := by
      apply (Nat.le_pow_iff_clog_le (by norm_num)).mp
      have : (2 : Nat) ^ 5 = 32 := by norm_num
      omega
    refine ⟨TextCompressor.mk cs cs.length (Nat.clog 2 (cs.length + 1))
        (formatBits (Nat.clog 2 (cs.length + 1)) cs.length),
      ?_, rfl, ?_, ?_, ?_, hle⟩
    · simp only [TextCompressor.init, if_neg h1,
        if_neg (by omega : ¬5 < Nat.clog 2 (cs.length + 1))]
    · exact Nat.le_pow_clog (by norm_num) _
    · intro w hw
      exact (Nat.le_pow_iff_clog_le (by norm_num)).mp hw
    · exact Nat.clog_pos (by norm_num) (by have := List.length_pos.mpr h1; omega)

/-- C2 witness: 31 identical entries succeed (the entry count is what
matters, not distinctness), 32 entries fail. -/
theorem claim2_table_construction_witness :
    (∃ t, TextCompressor.init (List.replicate 31 (['a'] : List Char)) = .ok t ∧
        t.bits_per_char =
          Nat.clog 2 ((List.replicate 31 (['a'] : List Char)).length + 1) ∧
        (List.replicate 31 (['a'] : List Char)).length + 1 ≤ 2 ^ t.bits_per_char ∧
        (∀ w, (List.replicate 31 (['a'] : List Char)).length + 1 ≤ 2 ^ w →
          t.bits_per_char ≤ w) ∧
        1 ≤ t.bits_per_char ∧ t.bits_per_char ≤ 5) ∧
    TextCompressor.init (List.replicate 32 (['a'] : List Char)) = .error .invalidTable :=
  ⟨(claim2_table_construction (List.replicate 31 (['a'] : List Char))).2.2
      (by decide) (by decide),
   (claim2_table_construction (List.replicate 32 (['a'] : List Char))).2.1 (by decide)⟩

/-- C4: encoding scans the case-folded input and fails with
`UnsupportedSymbol` on the first character without a code (`List.find?`
returns the first hit), producing no output at all; when no such character
exists the whole input encodes. -/
theorem claim4_unsupported_symbol (t : TextCompressor) (input : List Char) :
    (∀ c, (input.map Char.toLower).find? (fun c => (t.char_to_code [c]).isNone) = some c →
        t.compress input = .error (.unsupportedSymbol c)) ∧
    ((input.map Char.toLower).find? (fun c => (t.char_to_code [c]).isNone) = none →
        ∃ p, t.compress input = .ok p) := by
  constructor
  · intro c h
    exact compress_eq_of_find_some t input c h
  · intro h
    exact ⟨_, compress_eq_of_find_none t input h⟩

/-- C4 witness: "aZ" fails on 'z' (after case-folding), "ab" encodes. -/
theorem claim4_unsupported_symbol_witness :
    tableABC.compress ['a', 'Z'] = .error (.unsupportedSymbol 'z') ∧
    ∃ p, tableABC.compress ['a', 'b'] = .ok p :=
  ⟨(claim4_unsupported_symbol tableABC ['a', 'Z']).1 'z' (by decide),
   (claim4_unsupported_symbol tableABC ['a', 'b']).2 (by decide)⟩

/-- C5: when the scanning loop on the unpacked buffer terminates through the
EOS branch, appending any number of zero bytes leaves the decoded result
unchanged (and the decode is a success). -/
theorem claim5_padding_tolerance (t : TextCompressor) (hw : 1 ≤ t.bits_per_char)
    (bytes : List Nat) (k : Nat)
    (hhit : t.decodeHitsEos (bytesToBits bytes) = true) :
    t.decompress (bytes ++ List.replicate k 0) = t.decompress bytes ∧
    ∃ r, t.decompress bytes = .ok r := by
  obtain ⟨r, h1, h2⟩ :=
    hitsEos_decode t hw (bytesToBits bytes).length (bytesToBits bytes) le_rfl hhit
  constructor
  · rw [TextCompressor.decompress, TextCompressor.decompress, bytesToBits_append,
      bytesToBits_zero_bytes, h2 (List.replicate (8 * k) false), h1]
  · exact ⟨r, h1⟩

/-- C5 witness: the encoding of "ab" under the a, b, c table, padded with
two zero bytes. -/
theorem claim5_padding_tolerance_witness :
    tableABC.decompress ([28] ++ List.replicate 2 0) = tableABC.decompress [28] ∧
    ∃ r, tableABC.decompress [28] = .ok r :=
  claim5_padding_tolerance tableABC (by decide) [28] 2 (by decide)

/-- C3 counterexample: for the a, b, c table, encoding "ab" yields the
logical bits 00 01 11, which are 6 bits, not 8; packing appends two zero
padding bits to fill the byte, so the stream is not "8 bits exactly with
no padding". -/
theorem claim3_counterexample :
    (tableABC.encodeBits ['a', 'b']).length = 6 ∧
    ¬(tableABC.encodeBits ['a', 'b']).length = 8 ∧
    bytesToBits (packBits (tableABC.encodeBits ['a', 'b'])) =
      tableABC.encodeBits ['a', 'b'] ++ [false, false] := by decide

/-- C3 (amended): for the alphabet a, b, c construction yields width 2 with
codes a=00, b=01, c=10 and EOS=11; encoding "ab" yields the logical bits
00 01 11 — 6 bits — which pack MSB-first with two zero padding bits into
the single byte 0b00011100 (28), and decoding that byte returns "ab". -/
theorem claim3_concrete_amended :
    TextCompressor.init [['a'], ['b'], ['c']] = .ok tableABC ∧
    tableABC.bits_per_char = 2 ∧
    tableABC.char_to_code ['a'] = some [false, false] ∧
    tableABC.char_to_code ['b'] = some [false, true] ∧
    tableABC.char_to_code ['c'] = some [true, false] ∧
    tableABC.eos_code = [true, true] ∧
    tableABC.encodeBits ['a', 'b'] = [false, false, false, true, true, true] ∧
    (tableABC.encodeBits ['a', 'b']).length = 6 ∧
    packBits (tableABC.encodeBits ['a', 'b']) = [28] ∧
    tableABC.compress ['a', 'b'] = .ok ([28], 4) ∧
    tableABC.decompress [28] = .ok ['a', 'b'] :=
  ⟨init_abc, by decide, by decide, by decide, by decide, by decide, by decide,
   by decide, by decide, by decide, by decide⟩

/-- C6 counterexample: for the duplicated entry list a, b, a the code space
is not larger than N+1 (2^2 = 4 = 3+1), yet the window 00 — the shadowed
first code of 'a' — is unassigned and decoding a buffer leading with it
fails, refuting "unassigned values exist only when 2^code_width exceeds
len(symbols)+1". -/
theorem claim6_counterexample :
    TextCompressor.init [['a'], ['b'], ['a']] = .ok tableDup ∧
    2 ^ tableDup.bits_per_char = tableDup.char_set.length + 1 ∧
    tableDup.code_to_char [false, false] = none ∧
    tableDup.decompress [0] = .error (.invalidCode [false, false]) :=
  ⟨init_dup, by decide, by decide, by decide⟩

/-- C6 (amended): a full-width window mapped by neither the symbol table
nor EOS makes decode fail with `InvalidCode` carrying that window, both at
the bit level and for a byte buffer whose leading window it is; and for a
DUPLICATE-FREE symbol list, unassigned full-width values exist only when
`2^code_width` exceeds `len(symbols)+1` (when the code space is exactly
filled, every full-width window is assigned). -/
theorem claim6_invalid_code_amended {cs : List (List Char)} {t : TextCompressor}
    (hmk : TextCompressor.init cs = .ok t) :
    (∀ code rest, code.length = t.bits_per_char → t.code_to_char code = none →
        t.decodeLoop (code ++ rest) = .error (.invalidCode code)) ∧
    (∀ bytes rest code, bytesToBits bytes = code ++ rest →
        code.length = t.bits_per_char → t.code_to_char code = none →
        t.decompress bytes = .error (.invalidCode code)) ∧
    (cs.Nodup → 2 ^ t.bits_per_char = cs.length + 1 →
        ∀ code, code.length = t.bits_per_char → t.code_to_char code ≠ none) := by
  obtain ⟨hcs, hnum, hwdef, heos, hne0, hw1, hw5, hbound⟩ := init_inv hmk
  subst hcs
  refine ⟨?_, ?_, ?_⟩
  · intro code rest hlen hcc
    exact decodeLoop_invalid t hw1 hlen hcc
  · intro bytes rest code heq hlen hcc
    rw [TextCompressor.decompress, heq]
    exact decodeLoop_invalid t hw1 hlen hcc
  · intro hnd h2w code hlen hcc
    have hv := bitsToNat_lt code
    rw [hlen, h2w] at hv
    have hcode : code = formatBits t.bits_per_char (bitsToNat code) :=
      (formatBits_of_bitsToNat code hw1 hlen).symm
    by_cases hvn : bitsToNat code = t.char_set.length
    · have hiseos : code = t.eos_code := by
        rw [hcode, hvn, ← heos]
      rw [TextCompressor.code_to_char, if_pos hiseos] at hcc
      simp at hcc
    · have hvlt : bitsToNat code < t.char_set.length := by omega
      have hla : lastAssign (t.char_set.get ⟨bitsToNat code, hvlt⟩) 0 t.char_set =
          some (bitsToNat code) := by
        have := lastAssign_nodup t.char_set hnd 0 (bitsToNat code) hvlt
        simpa using this
      obtain ⟨_, _, _, _, hccs⟩ := table_symbol_facts hmk hla
      rw [hcode, hccs] at hcc
      simp at hcc

/-- C6 amended witness: the a, b table (width 2, three values used) rejects
the unassigned window 11 at the bit level and on the byte 0xff; the a, b, c
table fills its code space exactly and, being duplicate-free, leaves the
window 00 assigned. -/
theorem claim6_invalid_code_amended_witness :
    tableAB.decodeLoop ([true, true] ++ [false, false]) =
      .error (.invalidCode [true, true]) ∧
    tableAB.decompress [255] = .error (.invalidCode [true, true]) ∧
    tableABC.code_to_char [false, false] ≠ none :=
  ⟨(claim6_invalid_code_amended init_ab).1 [true, true] [false, false]
      (by decide) (by decide),
   (claim6_invalid_code_amended init_ab).2.1 [255] [true, true, true, true, true, true]
      [true, true] (by decide) (by decide) (by decide),
   (claim6_invalid_code_amended init_abc).2.2 (by decide) (by decide)
      [false, false] (by decide)⟩

/-- C7: the EOS code's value is the entry count, it never coincides with a
code assigned to a symbol, and the scanning loop stops on an EOS window
emitting nothing. -/
theorem claim7_eos_exclusivity {cs : List (List Char)} {t : TextCompressor}
    (hmk : TextCompressor.init cs = .ok t) :
    t.num_chars = cs.length ∧
    bitsToNat t.eos_code = cs.length ∧
    (∀ s code, t.char_to_code s = some code → code ≠ t.eos_code) ∧
    (∀ rest, t.decodeLoop (t.eos_code ++ rest) = .ok []) := by
  obtain ⟨hcs, hnum, hwdef, heos, hne0, hw1, hw5, hbound⟩ := init_inv hmk
  refine ⟨hnum, ?_, ?_, ?_⟩
  · rw [heos, bitsToNat_formatBits]
  · intro s code hct
    cases hla : lastAssign s 0 t.char_set with
    | none =>
        rw [TextCompressor.char_to_code, hla] at hct
        simp at hct
    | some i =>
        rw [TextCompressor.char_to_code, hla] at hct
        obtain ⟨_, _, _, hneq, _⟩ := table_symbol_facts hmk hla
        have hcode : code = formatBits t.bits_per_char i := by
          simp at hct
          exact hct.symm
        rw [hcode]
        exact hneq
  · intro rest
    have hlen : t.eos_code.length = t.bits_per_char := by
      rw [heos]
      exact formatBits_length hw1 (lt_of_lt_of_le (by omega) hbound)
    exact decodeLoop_eos t hw1 hlen rest

/-- C7 witness: the a, b, c table; the code of 'a' differs from EOS and an
EOS-led stream decodes to the empty text. -/
theorem claim7_eos_exclusivity_witness :
    tableABC.num_chars = 3 ∧
    bitsToNat tableABC.eos_code = 3 ∧
    [false, false] ≠ tableABC.eos_code ∧
    tableABC.decodeLoop (tableABC.eos_code ++ [true, false]) = .ok [] :=
  ⟨(claim7_eos_exclusivity init_abc).1,
   (claim7_eos_exclusivity init_abc).2.1,
   (claim7_eos_exclusivity init_abc).2.2.1 ['a'] [false, false] (by decide),
   (claim7_eos_exclusivity init_abc).2.2.2 [true, false]⟩

/-- C8: on success, the integer returned next to the packed bytes is the
bit count of the symbol portion only: the case-folded length times the code
width, the EOS code's bits excluded. -/
theorem claim8_bit_count {cs : List (List Char)} {t : TextCompressor}
    (hmk : TextCompressor.init cs = .ok t) (input : List Char) (p : List Nat × Nat)
    (hok : t.compress input = .ok p) :
    p.2 = (input.map Char.toLower).length * t.bits_per_char := by
  cases hfind : (input.map Char.toLower).find? (fun c => (t.char_to_code [c]).isNone) with
  | some c =>
      rw [compress_eq_of_find_some t input c hfind] at hok
      simp at hok
  | none =>
      rw [compress_eq_of_find_none t input hfind] at hok
      have hmem : ∀ c ∈ input.map Char.toLower, [c] ∈ t.char_set := by
        intro c hc
        exact (char_to_code_not_isNone_iff t [c]).mp (List.find?_eq_none.mp hfind c hc)
      have hp : p = (packBits (t.encodeBits (input.map Char.toLower)),
          (t.encodeBits (input.map Char.toLower)).length - t.bits_per_char) := by
        injection hok with h
        exact h.symm
      rw [hp]
      show (t.encodeBits (input.map Char.toLower)).length - t.bits_per_char = _
      rw [encodeBits_length hmk (input.map Char.toLower) hmem, Nat.add_sub_cancel]

/-- C8 witness: encoding "ab" with the a, b, c table reports 4 = 2 * 2 bits. -/
theorem claim8_bit_count_witness :
    (([28], 4) : List Nat × Nat).2 =
      (['a', 'b'].map Char.toLower).length * tableABC.bits_per_char :=
  claim8_bit_count init_abc ['a', 'b'] ([28], 4) (by decide)

/-- C9: on success the packed output holds ceil((L+1)*w/8) bytes for input
length L and width w — in particular at least one byte, even for the empty
text. -/
theorem claim9_output_length {cs : List (List Char)} {t : TextCompressor}
    (hmk : TextCompressor.init cs = .ok t) (input : List Char) (p : List Nat × Nat)
    (hok : t.compress input = .ok p) :
    p.1.length = ((input.length + 1) * t.bits_per_char + 7) / 8 ∧ 1 ≤ p.1.length := by
  obtain ⟨hcs, hnum, hwdef, heos, hne0, hw1, hw5, hbound⟩ := init_inv hmk
  cases hfind : (input.map Char.toLower).find? (fun c => (t.char_to_code [c]).isNone) with
  | some c =>
      rw [compress_eq_of_find_some t input c hfind] at hok
      simp at hok
  | none =>
      rw [compress_eq_of_find_none t input hfind] at hok
      have hmem : ∀ c ∈ input.map Char.toLower, [c] ∈ t.char_set := by
        intro c hc
        exact (char_to_code_not_isNone_iff t [c]).mp (List.find?_eq_none.mp hfind c hc)
      have hlen := encodeBits_length hmk (input.map Char.toLower) hmem
      rw [List.length_map] at hlen
      have hp : p = (packBits (t.encodeBits (input.map Char.toLower)),
          (t.encodeBits (input.map Char.toLower)).length - t.bits_per_char) := by
        injection hok with h
        exact h.symm
      rw [hp]
      constructor
      · show (packBits (t.encodeBits (input.map Char.toLower))).length = _
        rw [packBits_length, hlen]
        congr 1
        ring
      · show 1 ≤ (packBits (t.encodeBits (input.map Char.toLower))).length
        rw [packBits_length, hlen]
        have hx : 1 ≤ input.length * t.bits_per_char + t.bits_per_char :=
          le_trans hw1 (Nat.le_add_left _ _)
        revert hx
        generalize input.length * t.bits_per_char + t.bits_per_char = X
        intro hx
        omega

/-- C9 witness: "ab" with width 2 packs into ceil(6/8) = 1 byte. -/
theorem claim9_output_length_witness :
    (([28], 4) : List Nat × Nat).1.length =
      ((['a', 'b'].length + 1) * tableABC.bits_per_char + 7) / 8 ∧
    1 ≤ (([28], 4) : List Nat × Nat).1.length :=
  claim9_output_length init_abc ['a', 'b'] ([28], 4) (by decide)

/-- C10: an entry list with a duplicate still counts every entry in
`num_chars` and in the EOS value; the duplicated symbol maps to its LAST
index's code; the shadowed earlier index's code is absent from the reverse
map even though its value is below the EOS value, and any stream leading
with that window fails with `InvalidCode`. -/
theorem claim10_duplicate_shadowing {cs : List (List Char)} {t : TextCompressor}
    (hmk : TextCompressor.init cs = .ok t) (i k : Nat) (hi : i < cs.length)
    (hla : lastAssign (cs.get ⟨i, hi⟩) 0 cs = some k) (hne : k ≠ i) :
    t.num_chars = cs.length ∧
    bitsToNat t.eos_code = cs.length ∧
    t.char_to_code (cs.get ⟨i, hi⟩) = some (formatBits t.bits_per_char k) ∧
    t.code_to_char (formatBits t.bits_per_char i) = none ∧
    bitsToNat (formatBits t.bits_per_char i) < bitsToNat t.eos_code ∧
    (∀ rest, t.decodeLoop (formatBits t.bits_per_char i ++ rest) =
        .error (.invalidCode (formatBits t.bits_per_char i))) := by
  obtain ⟨hcs, hnum, hwdef, heos, hne0, hw1, hw5, hbound⟩ := init_inv hmk
  subst hcs
  have hmiss : ∀ j e, formatBits t.bits_per_char j = formatBits t.bits_per_char i →
      lastAssign e 0 t.char_set ≠ some j := by
    intro j e hfmt hlae
    have hji : j = i := formatBits_inj hfmt
    rw [hji] at hlae
    obtain ⟨_, hlt, hget⟩ := lastAssign_spec t.char_set e 0 i hlae
    simp only [Nat.sub_zero] at hlt hget
    have he : t.char_set.get ⟨i, hlt⟩ = e := by
      rw [List.getElem?_eq_getElem hlt] at hget
      injection hget with h
    rw [← he] at hlae
    have hki : (some k : Option Nat) = some i := hla.symm.trans hlae
    injection hki with hki'
    exact hne hki'
  have hneq : formatBits t.bits_per_char i ≠ t.eos_code := by
    rw [heos]
    intro hcon
    have := formatBits_inj hcon
    omega
  have hcc_none : t.code_to_char (formatBits t.bits_per_char i) = none := by
    rw [TextCompressor.code_to_char, if_neg hneq, invAssign_none hmiss t.char_set 0]
    rfl
  have hlen : (formatBits t.bits_per_char i).length = t.bits_per_char :=
    formatBits_length hw1 (lt_of_lt_of_le (by omega) hbound)
  refine ⟨hnum, ?_, ?_, hcc_none, ?_, ?_⟩
  · rw [heos, bitsToNat_formatBits]
  · rw [TextCompressor.char_to_code, hla]
    rfl
  · rw [heos, bitsToNat_formatBits, bitsToNat_formatBits]
    exact hi
  · intro rest
    exact decodeLoop_invalid t hw1 hlen hcc_none

/-- C10 witness: the entry list a, b, a — index 0 of 'a' is shadowed by
index 2; window 00 is rejected although its value 0 is below the EOS
value 3. -/
theorem claim10_duplicate_shadowing_witness :
    tableDup.num_chars = 3 ∧
    bitsToNat tableDup.eos_code = 3 ∧
    tableDup.char_to_code ['a'] = some (formatBits tableDup.bits_per_char 2) ∧
    tableDup.code_to_char (formatBits tableDup.bits_per_char 0) = none ∧
    bitsToNat (formatBits tableDup.bits_per_char 0) < bitsToNat tableDup.eos_code ∧
    (∀ rest, tableDup.decodeLoop (formatBits tableDup.bits_per_char 0 ++ rest) =
        .error (.invalidCode (formatBits tableDup.bits_per_char 0))) :=
  claim10_duplicate_shadowing init_dup 0 2 (by decide) (by decide) (by decide)
